import Mathlib

/-!
Verification of the import-alias rewriting engine of `js_alias_import.py`.

The development shallowly embeds the script's core:
  * the alias-table construction in `main` (lines 177-186),
  * the matching expression `_IMPORT_FROM_ALIAS_PATT` (lines 40-50),
    compiled with `re.DOTALL | re.VERBOSE`,
  * `replaceMatch` (lines 52-77) with `_KNOWN_EXTS` (line 80),
  * `_replaceAliases` (lines 108-134) and `_searchFiles` (lines 84-105).

Text is modelled as `List Char`.  Mutable state (the `changes` list, file
writes) is made explicit.  Exceptions (`IndexError`, `ValueError` from
`PurePosixPath.with_suffix`, I/O errors) are modelled as `Option`/error
results that propagate exactly as Python exceptions do in the source.

Modelling notes on the Python runtime, validated against CPython 3.11:
  * `re` module `\s` is the set of Unicode whitespace code points listed in
    `pyIsSpace`;
  * `\w` (used only through the word-boundary `\b`) is modelled by its
    ASCII subset `[A-Za-z0-9_]`; texts in all concrete inputs below are
    ASCII, where the model is exact;
  * the alias alternation `{aliases}` tries alternatives in the iteration
    order of the alias mapping; Python builds that mapping from a `set`
    whose iteration order is unspecified, so the model takes the order as
    an explicit list argument;
  * `PurePosixPath` drops empty and `.` components, keeps `..`, keeps a
    double (but not triple or more) leading slash as the root `//`.
-/

set_option maxHeartbeats 1600000

namespace JsAlias

/-- Unicode whitespace as matched by Python `re` `\s` on `str` and by
`str.split()` / `str.isspace()` (code points, CPython 3.11). -/
def pyIsSpace (c : Char) : Bool :=
  c = ' ' || c = '\t' || c = '\n' || (c.toNat ≥ 0xb && c.toNat ≤ 0xd) ||
  (c.toNat ≥ 0x1c && c.toNat ≤ 0x1f) || c.toNat = 0x85 || c.toNat = 0xa0 ||
  c.toNat = 0x1680 || (c.toNat ≥ 0x2000 && c.toNat ≤ 0x200a) ||
  c.toNat = 0x2028 || c.toNat = 0x2029 || c.toNat = 0x202f ||
  c.toNat = 0x205f || c.toNat = 0x3000

/-- Word character for the `\b` boundaries of the pattern; ASCII subset of
Python `\w` (see modelling notes). -/
def pyIsWordChar (c : Char) : Bool :=
  c.isAlpha || c.isDigit || c = '_'

/-- The two quote characters of the character class of the pattern. -/
def isQuote (c : Char) : Bool :=
  c = '\'' || c = '"'

/-! ## Python string helpers used by `main` (lines 177-186) -/

/-- `str.rstrip('/')`. -/
def pyRstripSlash (s : List Char) : List Char :=
  (s.reverse.dropWhile (fun c => c = '/')).reverse

/-- `str.strip('/')`. -/
def pyStripSlash (s : List Char) : List Char :=
  pyRstripSlash (s.dropWhile (fun c => c = '/'))

/-- `str.split(maxsplit=1)`: split on runs of whitespace, at most once;
leading whitespace is skipped, the remainder after the first token keeps
its trailing whitespace.  Returns zero, one or two pieces exactly as
CPython does. -/
def pySplit1 (s : List Char) : List (List Char) :=
  let s1 := s.dropWhile pyIsSpace
  if s1 = [] then []
  else
    let tok := s1.takeWhile (fun c => !pyIsSpace c)
    let rest := (s1.dropWhile (fun c => !pyIsSpace c)).dropWhile pyIsSpace
    if rest = [] then [tok] else [tok, rest]

/-! ## `PurePosixPath` model -/

/-- A parsed POSIX pure path: `root` is 0 (relative), 1 (`/`) or 2 (the
POSIX special `//` root); `segs` are the non-empty, non-`.` components. -/
structure PPath where
  root : Nat
  segs : List (List Char)
  deriving Repr, DecidableEq

/-- Split a character list on `/` (same semantics as `List.splitOn '/'`;
the result is always nonempty). -/
def splitSlash : List Char → List (List Char)
  | [] => [[]]
  | c :: rest =>
    match splitSlash rest with
    | [] => [[]]
    | h :: t => if c = '/' then [] :: h :: t else (c :: h) :: t

/-- `PurePosixPath(s)`: parse and normalize. -/
def parsePosix (s : List Char) : PPath :=
  let root :=
    if s.take 3 = ['/', '/', '/'] then 1
    else if s.take 2 = ['/', '/'] then 2
    else if s.take 1 = ['/'] then 1
    else 0
  let segs := (splitSlash s).filter (fun seg => seg ≠ [] && seg ≠ ['.'])
  ⟨root, segs⟩

/-- `str(p)` for the model of `PurePosixPath`. -/
def posixStr (p : PPath) : List Char :=
  let rootChars := List.replicate p.root '/'
  if p.root = 0 && p.segs = [] then ['.']
  else rootChars ++ (p.segs.intersperse ['/']).flatten

/-- `p.name`: the final component, `[]` for a root-only path. -/
def pathName (p : PPath) : List Char :=
  (p.segs.getLast?).getD []

/-- The suffix of one name: characters from the last dot on, provided the
dot is neither the first nor the last character of the name. -/
def nameSuffix (name : List Char) : List Char :=
  match name.reverse.findIdx? (fun c => c = '.') with
  | none => []
  | some j =>
      let i := name.length - 1 - j
      if 0 < i && i < name.length - 1 then name.drop i else []

/-- `p.suffix`. -/
def pathSuffix (p : PPath) : List Char :=
  nameSuffix (pathName p)

/-- `p.with_suffix('.js')`; `none` models the `ValueError` raised on an
empty name. -/
def withSuffixJs (p : PPath) : Option PPath :=
  let name := pathName p
  if name = [] then none
  else
    let old := pathSuffix p
    let newName := name.take (name.length - old.length) ++ ['.', 'j', 's']
    some ⟨p.root, p.segs.dropLast ++ [newName]⟩

/-- ASCII `str.lower`. -/
def pyLower (s : List Char) : List Char :=
  s.map Char.toLower

/-! ## The matching expression `_IMPORT_FROM_ALIAS_PATT` (lines 40-50)

```
\bimport\b \s+ (?P<stuff>(?:(?!\s+from\b).)*?) \s+from\b \s+
(['"]) (?P<alias>a1|a2|...) (?P<relPath>(?:/[^'"]+)+?) \2
```
compiled with `re.DOTALL | re.VERBOSE`.  The backtracking exploration of
this pattern is deterministic except for the greedy `\s+` after `import`
(explored longest first, `wsLoop`), the lazy `stuff` group (shortest
first, tempered by the lookahead, `stuffLoop`) and the alias alternation
(list order, `aliasLoop`); `relPath` followed by the backreference `\2`
admits at most one parse, ending at the first quote character
(`relCheck`).  The matcher works on a suffix of the text plus the one
character of left context needed by the leading `\b`. -/

/-- Length of the leading whitespace run (`\s*`). -/
def wsRun : List Char → Nat
  | [] => 0
  | c :: cs => if pyIsSpace c then wsRun cs + 1 else 0

/-- Length of the leading run of non-quote characters (`[^'"]*`). -/
def nonQuoteRun : List Char → Nat
  | [] => 0
  | c :: cs => if isQuote c then 0 else nonQuoteRun cs + 1

/-- `\b` between the previous character and a following word character,
or end-of-text check for the side after `t`/`m`: true when the next
character is absent or not a word character. -/
def boundaryAfter : List Char → Bool
  | [] => true
  | c :: _ => !pyIsWordChar c

/-- The lookahead `(?=\s+from\b)` at a suffix: a nonempty whitespace run
followed immediately by `from` and a word boundary.  (The quantifier
needs no backtracking here since `f` is not whitespace.) -/
def lookFrom (u : List Char) : Bool :=
  let v := wsRun u
  0 < v && ("from".data.isPrefixOf (u.drop v)) && boundaryAfter (u.drop (v + 4))

/-- `(?P<relPath>(?:/[^'"]+)+?)\2` at suffix `w` with opening quote `q`:
the relative path is forced to be the maximal non-quote run, which must
start with `/`, have length at least 2 and be followed by `q`.
Returns the captured path and the number of characters consumed
(including the closing quote). -/
def relCheck (q : Char) (w : List Char) : Option (List Char × Nat) :=
  let L := nonQuoteRun w
  if L < 2 then none
  else if w.take 1 ≠ ['/'] then none
  else
    match (w.drop L).head? with
    | some c => if c = q then some (w.take L, L + 1) else none
    | none => none

/-- The alias alternation, tried in list order; an alternative succeeds
only if the rest of the pattern (`relCheck`) succeeds after it. -/
def aliasLoop (q : Char) (u5 : List Char) : List (List Char) → Option (List Char × List Char × Nat)
  | [] => none
  | a :: rest =>
    if a.isPrefixOf u5 then
      match relCheck q (u5.drop a.length) with
      | some (rel, len) => some (a, rel, a.length + len)
      | none => aliasLoop q u5 rest
    else aliasLoop q u5 rest

/-- The pattern tail `\s+from\b\s+(['"])(?P<alias>...)(?P<relPath>...)\2`
at suffix `u` (right after the `stuff` group).  Both `\s+` are forced to
their maximal runs because the following characters (`f`, a quote) are
not whitespace.  Returns quote, alias, relative path and consumed
length. -/
def tryRest (aliases : List (List Char)) (u : List Char) : Option (Char × List Char × List Char × Nat) :=
  let v := wsRun u
  if 0 < v && "from".data.isPrefixOf (u.drop v) && boundaryAfter (u.drop (v + 4)) then
    let v2 := wsRun (u.drop (v + 4))
    if 0 < v2 then
      match (u.drop (v + 4 + v2)).head? with
      | none => none
      | some q =>
        if isQuote q then
          match aliasLoop q (u.drop (v + 4 + v2 + 1)) aliases with
          | none => none
          | some (a, rel, len5) => some (q, a, rel, v + 4 + v2 + 1 + len5)
        else none
    else none
  else none

/-- The lazy `stuff` group: at each position first try the pattern tail,
then, if the tempering lookahead `(?!\s+from\b)` allows it, consume one
character and continue.  Returns the length of `stuff` together with the
data of the tail. -/
def stuffLoop (aliases : List (List Char)) : List Char → Option (Nat × Char × List Char × List Char × Nat)
  | [] => none
  | c :: u' =>
    match tryRest aliases (c :: u') with
    | some (q, a, rel, len) => some (0, q, a, rel, len)
    | none =>
      if lookFrom (c :: u') then none
      else
        match stuffLoop aliases u' with
        | some (sl, q, a, rel, len) => some (sl + 1, q, a, rel, len)
        | none => none

/-- The greedy `\s+` after `import`: its lengths are explored from the
maximal run down to 1. -/
def wsLoop (aliases : List (List Char)) (s6 : List Char) : Nat → Option (Nat × Nat × Char × List Char × List Char × Nat)
  | 0 => none
  | k + 1 =>
    match stuffLoop aliases (s6.drop (k + 1)) with
    | some (sl, q, a, rel, len) => some (k + 1, sl, q, a, rel, len)
    | none => wsLoop aliases s6 k

/-- The data of one successful match. -/
structure MRes where
  wsLen : Nat
  stuff : List Char
  quote : Char
  aliasTok : List Char
  rel : List Char
  consumed : Nat
  deriving Repr, DecidableEq

/-- `\b` before a word character: true when there is no previous
character or it is not a word character. -/
def prevBoundary : Option Char → Bool
  | none => true
  | some c => !pyIsWordChar c

/-- Attempt to match the whole pattern at the start of suffix `s`, with
`prev` the character just before `s` (`none` at the start of the text). -/
def matchAtS (aliases : List (List Char)) (prev : Option Char) (s : List Char) : Option MRes :=
  if prevBoundary prev && "import".data.isPrefixOf s && boundaryAfter (s.drop 6) then
    match wsLoop aliases (s.drop 6) (wsRun (s.drop 6)) with
    | none => none
    | some (k, sl, q, a, rel, len) =>
        some ⟨k, (s.drop (6 + k)).take sl, q, a, rel, 6 + k + sl + len⟩
  else none

/-! ## `replaceMatch` (lines 52-77) -/

/-- `_KNOWN_EXTS` (line 80). -/
def knownExts : List (List Char) := [".json".data, ".js".data]

/-- `replaceMatch`: build the replacement text for one match; `none`
models the `ValueError` that `with_suffix('.js')` raises when the
relative path has an empty name; the boolean reports whether the alias
was appended to `changes`. -/
def pyReplaceMatch (mp : List (List Char × List Char)) (whole stuff : List Char)
    (quote : Char) (aliasTok rel : List Char) : Option (List Char × Bool) :=
  match mp.lookup aliasTok with
  | none => some (whole, false)
  | some v =>
    let pthAlias := posixStr (parsePosix v)
    let p := parsePosix rel
    let p' := if pyLower (pathSuffix p) ∈ knownExts then some p else withSuffixJs p
    match p' with
    | none => none
    | some p' =>
        some ("import ".data ++ stuff ++ " from ".data ++
          quote :: (pthAlias ++ posixStr p' ++ [quote]), true)

/-! ## `regex.sub` (line 125) -/

/-- Result of the substitution pass over one file: `crash` models an
exception escaping the replacement callback, `fuelOut` is an artifact of
the fuel-indexed recursion and is proved unreachable for sufficient
fuel. -/
inductive SubOut where
  | fuelOut
  | crash
  | ok (out : List Char) (changes : List (List Char))
  deriving Repr, DecidableEq

/-- The left-to-right scan of `re.sub`: try to match at every position;
on a match, emit the replacement and continue right after the matched
span (matching always happens on the original text). -/
def scanSub (mp : List (List Char × List Char)) (aliases : List (List Char)) :
    Nat → Option Char → List Char → SubOut
  | 0, _, _ => .fuelOut
  | fuel + 1, prev, s =>
    match matchAtS aliases prev s with
    | none =>
      match s with
      | [] => .ok [] []
      | c :: s' =>
        match scanSub mp aliases fuel (some c) s' with
        | .ok out ch => .ok (c :: out) ch
        | r => r
    | some m =>
      let span := s.take m.consumed
      match pyReplaceMatch mp span m.stuff m.quote m.aliasTok m.rel with
      | none => .crash
      | some (repl, recd) =>
        match scanSub mp aliases fuel span.getLast? (s.drop m.consumed) with
        | .ok out ch => .ok (repl ++ out) (if recd then m.aliasTok :: ch else ch)
        | r => r

/-- `regex.sub(replacer, content)` together with the final `changes`
list, for the pattern built from the keys of `mp` in order. -/
def pySub (mp : List (List Char × List Char)) (content : List Char) : SubOut :=
  scanSub mp (mp.map Prod.fst) (content.length + 1) none content

/-! ## Alias-table construction in `main` (lines 177-186) -/

/-- A construction failure: `malformed` models the uncaught `IndexError`
on `pair[1]` (or `pair[0]`) when a raw pair has no path token;
`duplicate` models the `DUP_ALIASES` early return. -/
inductive BuildErr where
  | malformed (raw : List Char)
  | duplicate (key : List Char)
  deriving Repr, DecidableEq

/-- Normalize one raw `"alias path"` string:
`key = pair[0].rstrip('/')`, `value = '/' + pair[1].strip('/')`;
`none` when the pair does not split into two tokens. -/
def normalizePair (raw : List Char) : Option (List Char × List Char) :=
  match pySplit1 raw with
  | [k, v] => some (pyRstripSlash k, '/' :: pyStripSlash v)
  | _ => none

/-- The loop body of lines 179-186. -/
def buildGo : List (List Char) → List (List Char × List Char) →
    Except BuildErr (List (List Char × List Char))
  | [], acc => .ok acc
  | raw :: rest, acc =>
    match normalizePair raw with
    | none => .error (.malformed raw)
    | some (k, v) =>
      if (acc.lookup k).isSome then .error (.duplicate k)
      else buildGo rest (acc ++ [(k, v)])

/-- Table construction: `aliases = set(args.alias)` deduplicates verbatim
repetitions of a raw pair, then the loop normalizes and inserts each one.
Python's set iteration order is unspecified; the model processes the
deduplicated pairs in first-occurrence order. -/
def build (raws : List (List Char)) : Except BuildErr (List (List Char × List Char)) :=
  buildGo raws.dedup []

/-! ## `_replaceAliases` (lines 108-134) -/

/-- The externally visible outcome for one file: the content written back
(if any) and the reported applied aliases (if a report was printed). -/
structure ProcResult where
  written : Option (List Char)
  reported : Option (List (List Char))
  deriving Repr, DecidableEq

/-- `_replaceAliases` on one file content: run the substitution; write
back and report exactly when the updated content differs; `none` models
an exception escaping (the `ValueError` of `with_suffix`). -/
def replaceAliasesModel (mp : List (List Char × List Char)) (content : List Char) :
    Option ProcResult :=
  match pySub mp content with
  | .ok updated ch =>
      if updated = content then some ⟨none, none⟩
      else some ⟨some updated, some ch⟩
  | _ => none

/-! ## `_searchFiles` (lines 84-105) -/

/-- `str.lstrip('.')`. -/
def pyLstripDot (s : List Char) : List Char :=
  s.dropWhile (fun c => c = '.')

/-- One filesystem entry as seen by the walk: its path, whether it is a
regular file, its `pathlib` suffix, and the result of `read_text()`
(`.error` models an `OSError`). -/
structure FakeFile where
  path : List Char
  isFile : Bool
  suffix : List Char
  content : Except Unit (List Char)
  deriving Repr

/-- Process one candidate file; any exception raised while reading or
rewriting propagates to the caller. -/
def processOneFile (mp : List (List Char × List Char)) (f : FakeFile) :
    Except Unit ProcResult :=
  match f.content with
  | .error _ => .error ()
  | .ok content =>
    match replaceAliasesModel mp content with
    | none => .error ()
    | some r => .ok r

/-- The loop of `_searchFiles` over the directory enumeration: candidates
are regular files whose suffix, stripped of leading dots, is in `exts`.
There is no exception handler in the loop, so a failure while processing
one file aborts the remaining iterations; the boolean records whether the
walk was aborted. -/
def searchFilesModel (mp : List (List Char × List Char)) (exts : List (List Char)) :
    List FakeFile → List (List Char × ProcResult) × Bool
  | [] => ([], false)
  | f :: rest =>
    if f.isFile && pyLstripDot f.suffix ∈ exts then
      match processOneFile mp f with
      | .error _ => ([], true)
      | .ok r =>
        let (l, b) := searchFilesModel mp exts rest
        ((f.path, r) :: l, b)
    else searchFilesModel mp exts rest

/-- `main` after argument parsing: build the table first; only on success
is any file enumerated, read or written. -/
def mainModel (rawAliases : List (List Char)) (exts : List (List Char))
    (files : List FakeFile) : Except BuildErr (List (List Char × ProcResult) × Bool) :=
  match build rawAliases with
  | .error e => .error e
  | .ok mp => .ok (searchFilesModel mp exts files)

/-- Modelled from the spec: "the rewritten quoted path is the
POSIX-normalized form of the replacement joined with the relative path:
repeated internal slashes are collapsed, single-dot segments and any
trailing slash are removed".  The two pieces are concatenated and then
normalized as one rooted path. -/
def specJoinedPath (repl rel : List Char) : List Char :=
  let segs := (splitSlash (repl ++ rel)).filter (fun seg => seg ≠ [] && seg ≠ ['.'])
  '/' :: (segs.intersperse ['/']).flatten

/-! ## Lemmas about the table construction -/

theorem head?_dropWhile_not (p : Char → Bool) (l : List Char) (c : Char)
    (h : (l.dropWhile p).head? = some c) : p c = false := by
  induction l with
  | nil => simp [List.dropWhile] at h
  | cons x xs ih =>
    rw [List.dropWhile_cons] at h
    split at h
    · exact ih h
    · rename_i hp
      simp at h
      subst h
      simpa using hp

theorem pyRstripSlash_prefix (l : List Char) : pyRstripSlash l <+: l := by
  unfold pyRstripSlash
  have h := List.dropWhile_suffix (l := l.reverse) (p := fun c => c = '/')
  simpa using h.reverse

theorem pyRstripSlash_getLast? (s : List Char) (c : Char)
    (h : (pyRstripSlash s).getLast? = some c) : c ≠ '/' := by
  unfold pyRstripSlash at h
  rw [List.getLast?_reverse] at h
  intro hc
  subst hc
  have := head?_dropWhile_not _ _ _ h
  simp at this

theorem pyStripSlash_head? (s : List Char) (c : Char)
    (h : (pyStripSlash s).head? = some c) : c ≠ '/' := by
  unfold pyStripSlash at h
  obtain ⟨t, ht⟩ := pyRstripSlash_prefix (s.dropWhile (fun c => c = '/'))
  intro hc
  subst hc
  have hh : (s.dropWhile (fun c => c = '/')).head? = some '/' := by
    rw [← ht]
    cases hpre : pyRstripSlash (s.dropWhile (fun c => c = '/')) with
    | nil => rw [hpre] at h; simp at h
    | cons a as =>
      rw [hpre] at h
      simp at h
      simp [h]
  have := head?_dropWhile_not _ _ _ hh
  simp at this

theorem pyStripSlash_getLast? (s : List Char) (c : Char)
    (h : (pyStripSlash s).getLast? = some c) : c ≠ '/' :=
  pyRstripSlash_getLast? _ _ h

theorem lookup_append_self_isSome (acc : List (List Char × List Char)) (k v : List Char) :
    ((acc ++ [(k, v)]).lookup k).isSome := by
  induction acc with
  | nil => simp [List.lookup]
  | cons x xs ih =>
    rw [List.cons_append, List.lookup_cons]
    split
    · simp
    · exact ih

/-- Every entry of a successfully built table is a normalized pair. -/
theorem buildGo_ok_shape (l : List (List Char)) :
    ∀ acc mp, buildGo l acc = .ok mp → ∀ e, e ∈ mp →
      e ∈ acc ∨ ∃ a b, e = (pyRstripSlash a, '/' :: pyStripSlash b) := by
  induction l with
  | nil =>
    intro acc mp h e he
    simp [buildGo] at h
    subst h
    exact .inl he
  | cons raw rest ih =>
    intro acc mp h e he
    cases hnp : normalizePair raw with
    | none => simp [buildGo, hnp] at h
    | some kv =>
      obtain ⟨k, v⟩ := kv
      simp only [buildGo, hnp] at h
      by_cases hdup : ((acc.lookup k).isSome = true)
      · rw [if_pos hdup] at h; exact absurd h (by simp)
      · rw [if_neg hdup] at h
        have := ih _ _ h e he
        rcases this with hacc | hshape
        · rcases List.mem_append.mp hacc with h1 | h2
          · exact .inl h1
          · right
            simp at h2
            subst h2
            unfold normalizePair at hnp
            split at hnp
            · rename_i k0 v0 hsp
              simp at hnp
              exact ⟨k0, v0, by rw [← hnp.1, ← hnp.2]⟩
            · exact absurd hnp (by simp)
        · exact .inr hshape

/-- C8 (counterexample): the raw pair `"@a /"` builds successfully, and
its stored replacement is exactly `"/"`, which does end with a trailing
slash, contradicting the claim that a stored replacement never ends with
a trailing slash. -/
theorem C8_counterexample_root_replacement :
    build ["@a /".data] = .ok [("@a".data, "/".data)] ∧
      ("/".data).getLast? = some '/' := by
  constructor
  · rfl
  · rfl

/-- C8 (amended): in every successfully built table, the stored alias
never ends with a slash, and the stored replacement begins with exactly
one leading slash; it ends with a trailing slash only in the degenerate
case where it is exactly `"/"` (path token consisting solely of
slashes). -/
theorem C8_amended_normalization (raws : List (List Char))
    (mp : List (List Char × List Char)) (h : build raws = .ok mp)
    (k v : List Char) (hmem : (k, v) ∈ mp) :
    k.getLast? ≠ some '/' ∧ v.head? = some '/' ∧
      (v.drop 1).head? ≠ some '/' ∧ (v.getLast? = some '/' → v = ['/']) := by
  have hshape := buildGo_ok_shape _ _ _ h _ hmem
  rcases hshape with habs | ⟨a, b, hab⟩
  · simp at habs
  · have hk : k = pyRstripSlash a := congrArg Prod.fst hab
    have hv : v = '/' :: pyStripSlash b := congrArg Prod.snd hab
    subst hk; subst hv
    refine ⟨?_, rfl, ?_, ?_⟩
    · intro hc
      exact pyRstripSlash_getLast? _ _ hc rfl
    · intro hc
      simp only [List.drop_one, List.tail_cons] at hc
      exact pyStripSlash_head? _ _ hc rfl
    · intro hc
      cases hb : pyStripSlash b with
      | nil => rfl
      | cons x xs =>
        have hl : (pyStripSlash b).getLast? = some '/' := by
          rw [hb] at hc ⊢
          rw [List.getLast?_cons_cons] at hc
          exact hc
        exact absurd rfl (pyStripSlash_getLast? b '/' hl)

theorem C8_amended_normalization_witness :
    build ["@a /x".data] = .ok [("@a".data, "/x".data)] ∧
      (("@a".data).getLast? ≠ some '/' ∧ ("/x".data).head? = some '/' ∧
        (("/x".data).drop 1).head? ≠ some '/' ∧
        (("/x".data).getLast? = some '/' → "/x".data = ['/'])) :=
  ⟨rfl, C8_amended_normalization ["@a /x".data] [("@a".data, "/x".data)] rfl
    "@a".data "/x".data (by simp)⟩

/-- C9: supplying the very same raw pair twice is harmless (the raw list
is deduplicated verbatim before normalization, so construction behaves as
if each distinct raw string were given once), while two textually
different pairs normalizing to the same alias are rejected. -/
theorem C9_verbatim_duplicates :
    (∀ raws : List (List Char), build raws = build raws.dedup) ∧
    build ["@a /x".data, "@a /x".data] = .ok [("@a".data, "/x".data)] ∧
    build ["@a /x".data, "@a /y".data] = .error (.duplicate "@a".data) := by
  refine ⟨?_, rfl, rfl⟩
  intro raws
  unfold build
  rw [List.dedup_idem]

theorem buildGo_error_of_malformed (l : List (List Char)) :
    ∀ acc raw, raw ∈ l → normalizePair raw = none →
      ∃ e, buildGo l acc = .error e := by
  induction l with
  | nil => intro acc raw h; simp at h
  | cons r rest ih =>
    intro acc raw hmem hnone
    cases hnp : normalizePair r with
    | none => exact ⟨.malformed r, by simp [buildGo, hnp]⟩
    | some kv =>
      obtain ⟨k, v⟩ := kv
      have hr : raw ∈ rest := by
        rcases List.mem_cons.mp hmem with h1 | h2
        · subst h1; rw [hnp] at hnone; exact absurd hnone (by simp)
        · exact h2
      by_cases hdup : ((acc.lookup k).isSome = true)
      · exact ⟨.duplicate k, by simp [buildGo, hnp, hdup]⟩
      · obtain ⟨e, he⟩ := ih (acc ++ [(k, v)]) raw hr hnone
        exact ⟨e, by simp [buildGo, hnp, hdup]; exact he⟩

theorem buildGo_error_of_key_in_acc (l : List (List Char)) :
    ∀ acc raw k v, raw ∈ l → normalizePair raw = some (k, v) →
      (acc.lookup k).isSome → ∃ e, buildGo l acc = .error e := by
  induction l with
  | nil => intro acc raw k v h; simp at h
  | cons r rest ih =>
    intro acc raw k v hmem hnp hlook
    cases hnp2 : normalizePair r with
    | none => exact ⟨.malformed r, by simp [buildGo, hnp2]⟩
    | some kv2 =>
      obtain ⟨k2, v2⟩ := kv2
      by_cases hdup : ((acc.lookup k2).isSome = true)
      · exact ⟨.duplicate k2, by simp [buildGo, hnp2, hdup]⟩
      · rcases List.mem_cons.mp hmem with h1 | h2
        · subst h1
          rw [hnp2] at hnp
          have hk : k2 = k := by
            have := congrArg (fun x => (Option.map Prod.fst x)) hnp
            simpa using this
          subst hk
          exact absurd hlook hdup
        · have hlook2 : ((acc ++ [(k2, v2)]).lookup k).isSome := by
            cases hl : acc.lookup k with
            | some w => simp [List.lookup_append, hl]
            | none => rw [hl] at hlook; simp at hlook
          obtain ⟨e, he⟩ := ih (acc ++ [(k2, v2)]) raw k v h2 hnp hlook2
          exact ⟨e, by simp [buildGo, hnp2, hdup]; exact he⟩

theorem buildGo_error_of_dup (l : List (List Char)) :
    ∀ acc r1 r2 k v1 v2, r1 ∈ l → r2 ∈ l → r1 ≠ r2 →
      normalizePair r1 = some (k, v1) → normalizePair r2 = some (k, v2) →
      ∃ e, buildGo l acc = .error e := by
  induction l with
  | nil => intro acc r1 r2 k v1 v2 h; simp at h
  | cons r rest ih =>
    intro acc r1 r2 k v1 v2 h1 h2 hne hn1 hn2
    cases hnp : normalizePair r with
    | none => exact ⟨.malformed r, by simp [buildGo, hnp]⟩
    | some kv =>
      obtain ⟨k0, v0⟩ := kv
      by_cases hdup : ((acc.lookup k0).isSome = true)
      · exact ⟨.duplicate k0, by simp [buildGo, hnp, hdup]⟩
      · have step : ∀ e, buildGo rest (acc ++ [(k0, v0)]) = .error e →
            ∃ e, buildGo (r :: rest) acc = .error e := by
          intro e he
          exact ⟨e, by simp [buildGo, hnp, hdup]; exact he⟩
        rcases List.mem_cons.mp h1 with e1 | e1
        · subst e1
          rw [hnp] at hn1
          have hk : k0 = k := by
            have := congrArg (fun x => (Option.map Prod.fst x)) hn1
            simpa using this
          subst hk
          have hr2 : r2 ∈ rest := by
            rcases List.mem_cons.mp h2 with f1 | f2
            · exact absurd f1.symm hne
            · exact f2
          obtain ⟨e, he⟩ := buildGo_error_of_key_in_acc rest (acc ++ [(k0, v0)])
            r2 k0 v2 hr2 hn2 (lookup_append_self_isSome acc k0 v0)
          exact step e he
        · rcases List.mem_cons.mp h2 with f1 | f1
          · subst f1
            rw [hnp] at hn2
            have hk : k0 = k := by
              have := congrArg (fun x => (Option.map Prod.fst x)) hn2
              simpa using this
            subst hk
            obtain ⟨e, he⟩ := buildGo_error_of_key_in_acc rest (acc ++ [(k0, v0)])
              r1 k0 v1 e1 hn1 (lookup_append_self_isSome acc k0 v0)
            exact step e he
          · obtain ⟨e, he⟩ := ih (acc ++ [(k0, v0)]) r1 r2 k v1 v2 e1 f1 hne hn1 hn2
            exact step e he

/-- C6: the table is validated while it is built, before any file is
enumerated, read or written: a raw pair with no path token fails the
construction (the uncaught `IndexError` on `pair[1]`), two different raw
pairs normalizing to the same alias fail the construction (the
`DUP_ALIASES` early return), and whenever construction fails the model of
`main` performs no file processing at all. -/
theorem C6_validation_before_any_io :
    (∀ (raws : List (List Char)) raw, raw ∈ raws → normalizePair raw = none →
      ∃ e, build raws = .error e) ∧
    (∀ (raws : List (List Char)) r1 r2 k v1 v2, r1 ∈ raws → r2 ∈ raws → r1 ≠ r2 →
      normalizePair r1 = some (k, v1) → normalizePair r2 = some (k, v2) →
      ∃ e, build raws = .error e) ∧
    (∀ raws exts files e, build raws = .error e →
      mainModel raws exts files = .error e) := by
  refine ⟨?_, ?_, ?_⟩
  · intro raws raw hmem hnone
    exact buildGo_error_of_malformed raws.dedup [] raw (List.mem_dedup.mpr hmem) hnone
  · intro raws r1 r2 k v1 v2 h1 h2 hne hn1 hn2
    exact buildGo_error_of_dup raws.dedup [] r1 r2 k v1 v2
      (List.mem_dedup.mpr h1) (List.mem_dedup.mpr h2) hne hn1 hn2
  · intro raws exts files e he
    unfold mainModel
    rw [he]

theorem C6_validation_before_any_io_witness :
    (∃ e, build ["@a".data] = .error e) ∧
    (∃ e, build ["@a /x".data, "@a /y".data] = .error e) ∧
    mainModel ["@a".data] [] [] = .error (.malformed "@a".data) :=
  ⟨C6_validation_before_any_io.1 ["@a".data] "@a".data (by simp) rfl,
   C6_validation_before_any_io.2.1 ["@a /x".data, "@a /y".data]
     "@a /x".data "@a /y".data "@a".data "/x".data "/y".data
     (by simp) (by simp) (by decide) rfl rfl,
   C6_validation_before_any_io.2.2 ["@a".data] [] [] (.malformed "@a".data) rfl⟩

/-- C1: the claim says a per-file I/O failure is reported for that file
only and the walk continues with the remaining candidates.  The loop in
`_searchFiles` (lines 103-105) has no exception handler around
`_replaceAliases`, so the first `OSError` propagates and aborts the whole
batch: with a first candidate whose read fails and a second, perfectly
processable candidate, the walk ends aborted having produced no result
for the second file, even though processing the second file alone
succeeds and would have rewritten it. -/
theorem C1_io_error_aborts_walk :
    searchFilesModel [("@a".data, "/r".data)] ["js".data]
      [⟨"bad.js".data, true, ".js".data, .error ()⟩,
       ⟨"good.js".data, true, ".js".data, .ok "import x from \"@a/b.ts\"".data⟩]
      = ([], true) ∧
    processOneFile [("@a".data, "/r".data)]
      ⟨"good.js".data, true, ".js".data, .ok "import x from \"@a/b.ts\"".data⟩
      = .ok ⟨some "import x from \"/r/b.js\"".data, some ["@a".data]⟩ := by
  constructor
  · rfl
  · rfl

/-- C7: `_replaceAliases` (lines 130-134) writes the file back and prints
the per-file report exactly when the updated content differs from the
original; identical content means no write and no report. -/
theorem C7_write_iff_changed (mp : List (List Char × List Char))
    (content updated : List Char) (ch : List (List Char))
    (h : pySub mp content = .ok updated ch) :
    (updated = content → replaceAliasesModel mp content = some ⟨none, none⟩) ∧
    (updated ≠ content → replaceAliasesModel mp content = some ⟨some updated, some ch⟩) := by
  constructor
  · intro he
    simp [replaceAliasesModel, h, he]
  · intro hne
    simp [replaceAliasesModel, h, hne]

theorem C7_write_iff_changed_witness :
    pySub [("@a".data, "/r".data)] "import a from \"@a/b.ts\"".data
      = .ok "import a from \"/r/b.js\"".data ["@a".data] ∧
    replaceAliasesModel [("@a".data, "/r".data)] "import a from \"@a/b.ts\"".data
      = some ⟨some "import a from \"/r/b.js\"".data, some ["@a".data]⟩ :=
  ⟨rfl, (C7_write_iff_changed [("@a".data, "/r".data)]
      "import a from \"@a/b.ts\"".data "import a from \"/r/b.js\"".data
      ["@a".data] rfl).2 (by decide)⟩

/-! ## Lemmas about the extension policy -/

theorem nameSuffix_append_js (stem : List Char) (h : stem ≠ []) :
    nameSuffix (stem ++ ['.', 'j', 's']) = ['.', 'j', 's'] := by
  have hidx : ((stem ++ ['.', 'j', 's']).reverse).findIdx? (fun c => c = '.') = some 2 := by
    rw [List.reverse_append]
    simp [List.findIdx?_cons]
  have h0 : 0 < stem.length := List.length_pos.mpr h
  unfold nameSuffix
  rw [hidx]
  have hlen : (stem ++ ['.', 'j', 's']).length = stem.length + 3 := by simp
  rw [hlen]
  dsimp only
  have h1 : stem.length + 3 - 1 - 2 = stem.length := by omega
  rw [h1]
  have h2 : (decide (0 < stem.length) && decide (stem.length < stem.length + 3 - 1)) = true := by
    simp only [Bool.and_eq_true, decide_eq_true_eq]
    omega
  rw [h2]
  simp only [if_true]
  rw [List.drop_append_of_le_length (le_refl stem.length)]
  simp

theorem nameSuffix_length_lt (name : List Char) (h : name ≠ []) :
    (nameSuffix name).length < name.length := by
  have h0 : 0 < name.length := List.length_pos.mpr h
  unfold nameSuffix
  cases hidx : (name.reverse.findIdx? (fun c => c = '.')) with
  | none => simpa using h0
  | some j =>
    dsimp only
    split
    · rename_i hcond
      simp only [Bool.and_eq_true, decide_eq_true_eq] at hcond
      rw [List.length_drop]
      omega
    · simpa using h0

theorem parsePosix_seg_ne_nil (s : List Char) (seg : List Char)
    (h : seg ∈ (parsePosix s).segs) : seg ≠ [] := by
  unfold parsePosix at h
  dsimp only at h
  have := (List.mem_filter.mp h).2
  simp only [Bool.and_eq_true, decide_eq_true_eq, ne_eq] at this
  exact this.1

theorem pathName_ne_nil_of_segs (p : PPath) (h : p.segs ≠ [])
    (hall : ∀ seg ∈ p.segs, seg ≠ []) : pathName p ≠ [] := by
  unfold pathName
  cases hg : p.segs.getLast? with
  | none => exact absurd (List.getLast?_eq_none_iff.mp hg) h
  | some x =>
    have hm : x ∈ p.segs := by
      obtain ⟨hne, hx⟩ := List.mem_getLast?_eq_getLast (l := p.segs) (x := x)
        (by rw [hg]; rfl)
      rw [hx]
      exact List.getLast_mem hne
    simpa using hall x hm

theorem pathSuffix_mk_concat (r : Nat) (l : List (List Char)) (nm : List Char) :
    pathSuffix ⟨r, l ++ [nm]⟩ = nameSuffix nm := by
  unfold pathSuffix pathName
  dsimp only
  rw [List.getLast?_concat]
  rfl

theorem withSuffixJs_eq (p : PPath) (h : pathName p ≠ []) :
    withSuffixJs p = some ⟨p.root, p.segs.dropLast ++
      [(pathName p).take ((pathName p).length - (pathSuffix p).length) ++ ['.', 'j', 's']]⟩ := by
  simp only [withSuffixJs, if_neg h]

theorem withSuffixJs_suffix (p : PPath) (h : pathName p ≠ []) :
    ∃ p', withSuffixJs p = some p' ∧ pathSuffix p' = ['.', 'j', 's'] ∧ p'.root = p.root := by
  have hlt := nameSuffix_length_lt (pathName p) h
  refine ⟨_, withSuffixJs_eq p h, ?_, rfl⟩
  rw [pathSuffix_mk_concat]
  apply nameSuffix_append_js
  intro hstem
  have hl := congrArg List.length hstem
  rw [List.length_take] at hl
  simp only [List.length_nil] at hl
  have hsuffix : pathSuffix p = nameSuffix (pathName p) := rfl
  rw [hsuffix] at hl
  omega

/-- The substitutable-match rewrite in the pass-through-extension case. -/
theorem pyReplaceMatch_ext_known (mp : List (List Char × List Char))
    (whole stuff : List Char) (q : Char) (a rel v : List Char)
    (hv : mp.lookup a = some v)
    (hext : pyLower (pathSuffix (parsePosix rel)) ∈ knownExts) :
    pyReplaceMatch mp whole stuff q a rel =
      some ("import ".data ++ stuff ++ " from ".data ++
        q :: (posixStr (parsePosix v) ++ posixStr (parsePosix rel) ++ [q]), true) := by
  simp only [pyReplaceMatch, hv, if_pos hext]

/-- The substitutable-match rewrite in the extension-replacing case. -/
theorem pyReplaceMatch_ext_unknown (mp : List (List Char × List Char))
    (whole stuff : List Char) (q : Char) (a rel v : List Char)
    (hv : mp.lookup a = some v) (hseg : (parsePosix rel).segs ≠ [])
    (hext : pyLower (pathSuffix (parsePosix rel)) ∉ knownExts) :
    ∃ p', withSuffixJs (parsePosix rel) = some p' ∧ pathSuffix p' = ['.', 'j', 's'] ∧
      pyReplaceMatch mp whole stuff q a rel =
        some ("import ".data ++ stuff ++ " from ".data ++
          q :: (posixStr (parsePosix v) ++ posixStr p' ++ [q]), true) := by
  have hname : pathName (parsePosix rel) ≠ [] :=
    pathName_ne_nil_of_segs _ hseg (fun seg hs => parsePosix_seg_ne_nil rel seg hs)
  obtain ⟨p', hp', hsuf, hroot⟩ := withSuffixJs_suffix (parsePosix rel) hname
  refine ⟨p', hp', hsuf, ?_⟩
  simp only [pyReplaceMatch, hv, if_neg hext, hp']

/-- C3 (counterexample): the statement `import a from "@u/."` contains a
substitutable match with alias `@u` and relative path `/.`, whose
extension is missing, so the claim prescribes appending `.js`; but `/.`
normalizes to the root, whose name is empty, so `with_suffix('.js')`
raises `ValueError` and the whole substitution pass crashes instead. -/
theorem C3_counterexample_crash_on_root_relpath :
    pyReplaceMatch [("@u".data, "/shared/utils".data)] "import a from \"@u/.\"".data
      "a".data '"' "@u".data "/.".data = none ∧
    pySub [("@u".data, "/shared/utils".data)] "import a from \"@u/.\"".data = .crash :=
  ⟨rfl, rfl⟩

/-- C3 (amended): for every substitutable match whose relative path keeps
a nonempty final component after POSIX normalization, the extension
policy holds as claimed: an extension that is not (case-insensitively)
`.json` or `.js` is replaced by `.js` (a missing one is appended, the new
extension is literally `.js`), while paths already carrying `.json` or
`.js` keep their extension; `"@utils/helpers.ts"` with
`@utils -> /shared/utils` yields `"/shared/utils/helpers.js"` and
`"@utils/data.json"` yields `"/shared/utils/data.json"`.  (On a relative
path normalizing to the root the rewrite raises instead, see the
counterexample.) -/
theorem C3_amended_extension_policy (mp : List (List Char × List Char))
    (whole stuff : List Char) (q : Char) (a rel v : List Char)
    (hv : mp.lookup a = some v) (hseg : (parsePosix rel).segs ≠ []) :
    (pyLower (pathSuffix (parsePosix rel)) ∈ knownExts →
      pyReplaceMatch mp whole stuff q a rel =
        some ("import ".data ++ stuff ++ " from ".data ++
          q :: (posixStr (parsePosix v) ++ posixStr (parsePosix rel) ++ [q]), true)) ∧
    (pyLower (pathSuffix (parsePosix rel)) ∉ knownExts →
      ∃ p', withSuffixJs (parsePosix rel) = some p' ∧ pathSuffix p' = ['.', 'j', 's'] ∧
        pyReplaceMatch mp whole stuff q a rel =
          some ("import ".data ++ stuff ++ " from ".data ++
            q :: (posixStr (parsePosix v) ++ posixStr p' ++ [q]), true)) ∧
    pyReplaceMatch [("@utils".data, "/shared/utils".data)] whole stuff q
      "@utils".data "/helpers.ts".data =
      some ("import ".data ++ stuff ++ " from ".data ++
        q :: ("/shared/utils/helpers.js".data ++ [q]), true) ∧
    pyReplaceMatch [("@utils".data, "/shared/utils".data)] whole stuff q
      "@utils".data "/data.json".data =
      some ("import ".data ++ stuff ++ " from ".data ++
        q :: ("/shared/utils/data.json".data ++ [q]), true) := by
  refine ⟨?_, ?_, rfl, rfl⟩
  · intro hext
    exact pyReplaceMatch_ext_known mp whole stuff q a rel v hv hext
  · intro hext
    exact pyReplaceMatch_ext_unknown mp whole stuff q a rel v hv hseg hext

theorem C3_amended_extension_policy_witness :
    ∃ p', withSuffixJs (parsePosix "/helpers.ts".data) = some p' ∧
      pathSuffix p' = ['.', 'j', 's'] ∧
      pyReplaceMatch [("@utils".data, "/shared/utils".data)]
        "import x from \"@utils/helpers.ts\"".data "x".data '"'
        "@utils".data "/helpers.ts".data =
        some ("import ".data ++ "x".data ++ " from ".data ++
          '"' :: (posixStr (parsePosix "/shared/utils".data) ++ posixStr p' ++ ['"']), true) :=
  (C3_amended_extension_policy [("@utils".data, "/shared/utils".data)]
    "import x from \"@utils/helpers.ts\"".data "x".data '"'
    "@utils".data "/helpers.ts".data "/shared/utils".data rfl (by decide)).2.1 (by decide)

/-! ## Lemmas about POSIX normalization of the rewritten path -/

theorem splitSlash_ne_nil (s : List Char) : splitSlash s ≠ [] := by
  cases s with
  | nil => simp [splitSlash]
  | cons c rest =>
    unfold splitSlash
    cases h : splitSlash rest with
    | nil => simp
    | cons a t =>
      dsimp only
      split <;> simp

theorem splitSlash_cons (c : Char) (rest : List Char) :
    splitSlash (c :: rest) = match splitSlash rest with
      | [] => [[]]
      | h :: t => if c = '/' then [] :: h :: t else (c :: h) :: t := rfl

theorem splitSlash_append_slash (a b : List Char) :
    splitSlash (a ++ '/' :: b) = splitSlash a ++ splitSlash b := by
  induction a with
  | nil =>
    rw [List.nil_append, splitSlash_cons]
    cases h : splitSlash b with
    | nil => exact absurd h (splitSlash_ne_nil b)
    | cons x t => simp [splitSlash]
  | cons c a' ih =>
    rw [List.cons_append, splitSlash_cons, ih, splitSlash_cons]
    cases h : splitSlash a' with
    | nil => exact absurd h (splitSlash_ne_nil a')
    | cons x t =>
      by_cases hc : c = '/' <;> simp [hc]

theorem flatten_intersperse_append (a : List Char) (A B : List (List Char)) (hB : B ≠ []) :
    (((a :: A) ++ B).intersperse ['/']).flatten =
      ((a :: A).intersperse ['/']).flatten ++ '/' :: (B.intersperse ['/']).flatten := by
  induction A generalizing a with
  | nil =>
    cases B with
    | nil => exact absurd rfl hB
    | cons b B' =>
      rw [List.singleton_append, List.intersperse_cons_cons, List.intersperse_singleton]
      simp
  | cons a2 A'' ih =>
    have step1 : ((a :: a2 :: A'') ++ B) = a :: ((a2 :: A'') ++ B) := by simp
    rw [step1, List.cons_append, List.intersperse_cons_cons,
      List.intersperse_cons_cons]
    simp only [List.flatten_cons]
    rw [← List.cons_append, ih a2]
    simp

theorem parsePosix_root_one (s : List Char) (h1 : s.head? = some '/')
    (h2 : (s.drop 1).head? ≠ some '/') : (parsePosix s).root = 1 := by
  cases s with
  | nil => simp at h1
  | cons c cs =>
    simp only [List.head?_cons, Option.some.injEq] at h1
    subst h1
    cases cs with
    | nil => rfl
    | cons c2 rest =>
      simp only [List.drop_one, List.tail_cons, List.head?_cons, ne_eq,
        Option.some.injEq] at h2
      unfold parsePosix
      dsimp only
      have ht3 : ('/' :: c2 :: rest).take 3 ≠ ['/', '/', '/'] := by
        simp [List.take_succ_cons, h2]
      have ht2 : ('/' :: c2 :: rest).take 2 ≠ ['/', '/'] := by
        simp [List.take_succ_cons, h2]
      rw [if_neg ht3, if_neg ht2, if_pos (by simp [List.take_succ_cons])]

theorem posixStr_root_one (p : PPath) (h : p.root = 1) :
    posixStr p = '/' :: (p.segs.intersperse ['/']).flatten := by
  unfold posixStr
  rw [h]
  simp

theorem parsePosix_segs_eq (s : List Char) :
    (parsePosix s).segs = (splitSlash s).filter (fun seg => seg ≠ [] && seg ≠ ['.']) := rfl

/-- Concatenating the separately normalized replacement and relative
path equals the spec's joint normalization, away from the POSIX `//`
special case and root-collapsing degeneracies. -/
theorem posix_concat_norm (v rel : List Char)
    (hv1 : v.head? = some '/') (hv2 : (v.drop 1).head? ≠ some '/')
    (hvseg : (parsePosix v).segs ≠ [])
    (hr1 : rel.head? = some '/') (hr2 : (parsePosix rel).root = 1)
    (hrseg : (parsePosix rel).segs ≠ []) :
    posixStr (parsePosix v) ++ posixStr (parsePosix rel) = specJoinedPath v rel := by
  have hvroot : (parsePosix v).root = 1 := parsePosix_root_one v hv1 hv2
  obtain ⟨r', hrel⟩ : ∃ r', rel = '/' :: r' := by
    cases rel with
    | nil => simp at hr1
    | cons c cs =>
      simp only [List.head?_cons, Option.some.injEq] at hr1
      subst hr1
      exact ⟨cs, rfl⟩
  subst hrel
  have hsegs_rel : (parsePosix ('/' :: r')).segs =
      (splitSlash r').filter (fun seg => seg ≠ [] && seg ≠ ['.']) := by
    rw [parsePosix_segs_eq, splitSlash_cons]
    cases h : splitSlash r' with
    | nil => exact absurd h (splitSlash_ne_nil r')
    | cons x t => simp [h]
  rw [posixStr_root_one _ hvroot, posixStr_root_one _ hr2]
  unfold specJoinedPath
  dsimp only
  rw [splitSlash_append_slash, List.filter_append]
  rw [← parsePosix_segs_eq, ← hsegs_rel]
  cases hA : (parsePosix v).segs with
  | nil => exact absurd hA hvseg
  | cons a A0 =>
    rw [List.cons_append,
      flatten_intersperse_append a A0 (parsePosix ('/' :: r')).segs hrseg]

/-- C10 (counterexample): with alias `@a -> /r` the matched relative
path `//c.js` keeps its POSIX-special double leading slash: the code
rewrites to quoted path `/r//c.js`, whereas the claim's joint POSIX
normalization (repeated internal slashes collapsed) yields `/r/c.js`. -/
theorem C10_counterexample_double_slash :
    pyReplaceMatch [("@a".data, "/r".data)] "import s from \"@a//c.js\"".data
      "s".data '"' "@a".data "//c.js".data =
      some ("import s from \"/r//c.js\"".data, true) ∧
    specJoinedPath "/r".data "//c.js".data = "/r/c.js".data ∧
    ("/r//c.js".data : List Char) ≠ "/r/c.js".data :=
  ⟨rfl, rfl, by decide⟩

/-- C10 (amended): for every substitutable match whose extension is left
unchanged by the policy, the rewritten quoted path is the concatenation
of the separately POSIX-normalized replacement and relative path, and
this equals the joint POSIX normalization of the claim (repeated internal
slashes collapsed, single-dot segments and trailing slashes removed)
whenever the relative path does not begin with the POSIX-special double
slash and neither part normalizes to a bare root; a relative part with
exactly two leading slashes keeps its double slash, as in the
counterexample.  The claim's example `@a/x//y.js` is rewritten with
relative part `/x/y.js`. -/
theorem C10_amended_normalized_concat (mp : List (List Char × List Char))
    (whole stuff : List Char) (q : Char) (a rel v : List Char)
    (hv : mp.lookup a = some v)
    (hv1 : v.head? = some '/') (hv2 : (v.drop 1).head? ≠ some '/')
    (hvseg : (parsePosix v).segs ≠ [])
    (hr1 : rel.head? = some '/') (hr2 : (parsePosix rel).root = 1)
    (hrseg : (parsePosix rel).segs ≠ [])
    (hext : pyLower (pathSuffix (parsePosix rel)) ∈ knownExts) :
    pyReplaceMatch mp whole stuff q a rel =
      some ("import ".data ++ stuff ++ " from ".data ++
        q :: (specJoinedPath v rel ++ [q]), true) ∧
    specJoinedPath "/a".data "/x//y.js".data = "/a/x/y.js".data := by
  refine ⟨?_, rfl⟩
  rw [pyReplaceMatch_ext_known mp whole stuff q a rel v hv hext]
  rw [← posix_concat_norm v rel hv1 hv2 hvseg hr1 hr2 hrseg]

/-! ## Soundness of the matcher: every successful match decomposes the
text into the skeleton of the pattern -/

theorem wsRun_take_space (u : List Char) (k : Nat) (hk : k ≤ wsRun u) :
    ∀ c ∈ u.take k, pyIsSpace c := by
  induction u generalizing k with
  | nil => intro c hc; simp at hc
  | cons x xs ih =>
    intro c hc
    cases k with
    | zero => simp at hc
    | succ k' =>
      rw [wsRun] at hk
      by_cases hx : pyIsSpace x
      · rw [if_pos hx] at hk
        rw [List.take_succ_cons] at hc
        rcases List.mem_cons.mp hc with h1 | h2
        · rwa [h1]
        · exact ih k' (by omega) c h2
      · rw [if_neg hx] at hk
        omega

theorem wsRun_le_length (u : List Char) : wsRun u ≤ u.length := by
  induction u with
  | nil => simp [wsRun]
  | cons x xs ih =>
    rw [wsRun]
    split
    · simpa using ih
    · simp

theorem nonQuoteRun_take (w : List Char) :
    ∀ c ∈ w.take (nonQuoteRun w), isQuote c = false := by
  induction w with
  | nil => intro c hc; simp at hc
  | cons x xs ih =>
    intro c hc
    rw [nonQuoteRun] at hc
    by_cases hx : isQuote x
    · rw [if_pos hx] at hc; simp at hc
    · rw [if_neg hx] at hc
      rw [List.take_succ_cons] at hc
      rcases List.mem_cons.mp hc with h1 | h2
      · rw [h1]; exact Bool.not_eq_true _ ▸ (by simpa using hx)
      · exact ih c h2

theorem nonQuoteRun_le_length (w : List Char) : nonQuoteRun w ≤ w.length := by
  induction w with
  | nil => simp [nonQuoteRun]
  | cons x xs ih =>
    rw [nonQuoteRun]
    split
    · simp
    · simpa using ih

theorem relCheck_sound (q : Char) (w rel : List Char) (len : Nat)
    (h : relCheck q w = some (rel, len)) :
    ∃ rest, w = rel ++ q :: rest ∧ rel.take 1 = ['/'] ∧ 2 ≤ rel.length ∧
      (∀ c ∈ rel, isQuote c = false) ∧ len = rel.length + 1 := by
  unfold relCheck at h
  by_cases hL : nonQuoteRun w < 2
  · rw [if_pos hL] at h; exact absurd h (by simp)
  · rw [if_neg hL] at h
    by_cases hsl : w.take 1 ≠ ['/']
    · rw [if_pos hsl] at h; exact absurd h (by simp)
    · rw [if_neg hsl] at h
      push_neg at hsl
      cases hd : (w.drop (nonQuoteRun w)).head? with
      | none => rw [hd] at h; exact absurd h (by simp)
      | some c =>
        rw [hd] at h
        dsimp only at h
        by_cases hc : c = q
        · rw [if_pos hc] at h
          simp only [Option.some.injEq, Prod.mk.injEq] at h
          obtain ⟨hrel, hlen⟩ := h
          subst hc
          subst hrel
          subst hlen
          have hwlen : nonQuoteRun w ≤ w.length := nonQuoteRun_le_length w
          obtain ⟨rest, hrest⟩ : ∃ rest, w.drop (nonQuoteRun w) = c :: rest := by
            cases hw : w.drop (nonQuoteRun w) with
            | nil => rw [hw] at hd; simp at hd
            | cons y ys =>
              rw [hw] at hd
              simp only [List.head?_cons, Option.some.injEq] at hd
              exact ⟨ys, by rw [hd]⟩
          refine ⟨rest, ?_, ?_, ?_, ?_, ?_⟩
          · conv_lhs => rw [← List.take_append_drop (nonQuoteRun w) w]
            rw [hrest]
          · have heq : w.take 1 = (w.take (nonQuoteRun w)).take 1 := by
              rw [List.take_take]
              congr 1
              omega
            rw [← heq, hsl]
          · rw [List.length_take]
            omega
          · exact nonQuoteRun_take w
          · rw [List.length_take]
            omega
        · rw [if_neg hc] at h; exact absurd h (by simp)

theorem aliasLoop_sound (q : Char) (u5 : List Char) (al : List (List Char))
    (a rel : List Char) (len : Nat) (h : aliasLoop q u5 al = some (a, rel, len)) :
    a ∈ al ∧ ∃ rest, u5 = a ++ (rel ++ q :: rest) ∧ rel.take 1 = ['/'] ∧
      2 ≤ rel.length ∧ (∀ c ∈ rel, isQuote c = false) ∧
      len = a.length + (rel.length + 1) := by
  induction al with
  | nil => simp [aliasLoop] at h
  | cons a0 al' ih =>
    rw [aliasLoop] at h
    by_cases hp : a0.isPrefixOf u5 = true
    · rw [if_pos hp] at h
      cases hrc : relCheck q (u5.drop a0.length) with
      | none =>
        rw [hrc] at h
        obtain ⟨hmem, rest, hrest⟩ := ih h
        exact ⟨List.mem_cons_of_mem a0 hmem, rest, hrest⟩
      | some pr =>
        obtain ⟨rel0, len0⟩ := pr
        rw [hrc] at h
        dsimp only at h
        simp only [Option.some.injEq, Prod.mk.injEq] at h
        obtain ⟨ha, hrel, hlen⟩ := h
        rw [← ha, ← hrel, ← hlen]
        obtain ⟨rest, hdrop, h1, h2, h3, h4⟩ :=
          relCheck_sound q (u5.drop a0.length) rel0 len0 hrc
        have hpre : a0 <+: u5 := List.isPrefixOf_iff_prefix.mp hp
        refine ⟨List.mem_cons_self a0 al', rest, ?_, h1, h2, h3, by omega⟩
        conv_lhs => rw [← List.take_append_drop a0.length u5]
        rw [hdrop]
        congr 1
        exact (List.prefix_iff_eq_take.mp hpre).symm
    · rw [if_neg hp] at h
      obtain ⟨hmem, rest, hrest⟩ := ih h
      exact ⟨List.mem_cons_of_mem a0 hmem, rest, hrest⟩

theorem tryRest_sound (al : List (List Char)) (u : List Char) (q : Char)
    (a rel : List Char) (len : Nat) (h : tryRest al u = some (q, a, rel, len)) :
    ∃ w2 w3 rest, u = w2 ++ ("from".data ++ (w3 ++ q :: (a ++ (rel ++ q :: rest)))) ∧
      w2 ≠ [] ∧ (∀ c ∈ w2, pyIsSpace c) ∧ w3 ≠ [] ∧ (∀ c ∈ w3, pyIsSpace c) ∧
      boundaryAfter (u.drop (w2.length + 4)) = true ∧
      isQuote q = true ∧ a ∈ al ∧ rel.take 1 = ['/'] ∧ 2 ≤ rel.length ∧
      (∀ c ∈ rel, isQuote c = false) ∧
      w2.length = wsRun u ∧
      len = w2.length + 4 + w3.length + 1 + (a.length + (rel.length + 1)) := by
  unfold tryRest at h
  by_cases hc1 : (0 < wsRun u && "from".data.isPrefixOf (u.drop (wsRun u)) &&
      boundaryAfter (u.drop (wsRun u + 4))) = true
  · rw [if_pos hc1] at h
    simp only [Bool.and_eq_true, decide_eq_true_eq] at hc1
    obtain ⟨⟨hv, hfrom⟩, hba⟩ := hc1
    dsimp only at h
    by_cases hc2 : 0 < wsRun (u.drop (wsRun u + 4))
    · rw [if_pos hc2] at h
      set v := wsRun u with hvdef
      set v2 := wsRun (u.drop (v + 4)) with hv2def
      cases hq : (u.drop (v + 4 + v2)).head? with
      | none => rw [hq] at h; exact absurd h (by simp)
      | some q0 =>
        rw [hq] at h
        dsimp only at h
        by_cases hqq : isQuote q0 = true
        · rw [if_pos hqq] at h
          cases hal : aliasLoop q0 (u.drop (v + 4 + v2 + 1)) al with
          | none => rw [hal] at h; exact absurd h (by simp)
          | some r3 =>
            obtain ⟨a0, rel0, len5⟩ := r3
            rw [hal] at h
            dsimp only at h
            simp only [Option.some.injEq, Prod.mk.injEq] at h
            obtain ⟨hq0, ha0, hrel0, hlen⟩ := h
            rw [← hq0, ← ha0, ← hrel0, ← hlen]
            obtain ⟨hmem, rest, hu5, hr1, hr2, hr3, hlen5⟩ :=
              aliasLoop_sound q0 _ al a0 rel0 len5 hal
            have hvle : v ≤ u.length := wsRun_le_length u
            have hv2le : v2 ≤ (u.drop (v + 4)).length := wsRun_le_length _
            have hdrop4 : u.drop v = "from".data ++ u.drop (v + 4) := by
              obtain ⟨t, ht⟩ := List.isPrefixOf_iff_prefix.mp hfrom
              have htake : (u.drop v).take 4 = "from".data :=
                (List.prefix_iff_eq_take.mp ⟨t, ht⟩).symm
              conv_lhs => rw [← List.take_append_drop 4 (u.drop v)]
              rw [htake, List.drop_drop]
            have hdropq : u.drop (v + 4 + v2) = q0 :: u.drop (v + 4 + v2 + 1) := by
              cases hw : u.drop (v + 4 + v2) with
              | nil => rw [hw] at hq; simp at hq
              | cons y ys =>
                rw [hw] at hq
                simp only [List.head?_cons, Option.some.injEq] at hq
                subst hq
                congr 1
                have hys : ys = (u.drop (v + 4 + v2)).drop 1 := by rw [hw]; rfl
                rw [hys, List.drop_drop]
            set w2 := u.take v with hw2
            set w3 := (u.drop (v + 4)).take v2 with hw3
            have hdropv2 : u.drop (v + 4) = w3 ++ u.drop (v + 4 + v2) := by
              rw [hw3]
              conv_lhs => rw [← List.take_append_drop v2 (u.drop (v + 4))]
              rw [List.drop_drop]
            have e1 : u.drop (v + 4 + v2) = q0 :: (a0 ++ (rel0 ++ q0 :: rest)) := by
              rw [hdropq, hu5]
            have e2 : u.drop (v + 4) = w3 ++ (q0 :: (a0 ++ (rel0 ++ q0 :: rest))) := by
              rw [hdropv2, e1]
            have e3 : u.drop v =
                "from".data ++ (w3 ++ (q0 :: (a0 ++ (rel0 ++ q0 :: rest)))) := by
              rw [hdrop4, e2]
            have hw2len : w2.length = v := by
              rw [hw2, List.length_take]
              omega
            have hw3len : w3.length = v2 := by
              rw [hw3, List.length_take]
              omega
            refine ⟨w2, w3, rest, ?_, ?_, ?_, ?_, ?_, ?_, hqq, hmem, hr1, hr2, hr3, ?_, ?_⟩
            · conv_lhs => rw [← List.take_append_drop v u]
              rw [← hw2, e3]
            · intro habs
              rw [habs] at hw2len
              simp at hw2len
              omega
            · rw [hw2]
              exact wsRun_take_space u v (le_refl v)
            · intro habs
              rw [habs] at hw3len
              simp at hw3len
              omega
            · rw [hw3]
              exact wsRun_take_space _ v2 (le_refl v2)
            · rw [hw2len]
              exact hba
            · rw [hw2len]
            · rw [hw2len, hw3len]
              omega
        · rw [if_neg hqq] at h; exact absurd h (by simp)
    · rw [if_neg hc2] at h; exact absurd h (by simp)
  · rw [if_neg hc1] at h; exact absurd h (by simp)

theorem stuffLoop_nil (al : List (List Char)) : stuffLoop al [] = none := rfl

theorem stuffLoop_cons (al : List (List Char)) (c : Char) (u' : List Char) :
    stuffLoop al (c :: u') = (match tryRest al (c :: u') with
    | some (q, a, rel, len) => some (0, q, a, rel, len)
    | none =>
      if lookFrom (c :: u') then none
      else
        match stuffLoop al u' with
        | some (sl, q, a, rel, len) => some (sl + 1, q, a, rel, len)
        | none => none) := rfl

theorem stuffLoop_sound (al : List (List Char)) (u : List Char)
    (sl : Nat) (q : Char) (a rel : List Char) (len : Nat)
    (h : stuffLoop al u = some (sl, q, a, rel, len)) :
    sl ≤ u.length ∧ tryRest al (u.drop sl) = some (q, a, rel, len) ∧
      (∀ i < sl, tryRest al (u.drop i) = none ∧ lookFrom (u.drop i) = false) := by
  induction u generalizing sl with
  | nil => rw [stuffLoop_nil] at h; exact absurd h (by simp)
  | cons c u' ih =>
    rw [stuffLoop_cons] at h
    cases htr : tryRest al (c :: u') with
    | some r =>
      rw [htr] at h
      obtain ⟨q1, a1, rel1, len1⟩ := r
      dsimp only at h
      simp only [Option.some.injEq, Prod.mk.injEq] at h
      obtain ⟨hsl, hq, ha, hrel, hlen⟩ := h
      subst hsl
      refine ⟨by simp, ?_, ?_⟩
      · rw [List.drop_zero, htr, hq, ha, hrel, hlen]
      · intro i hi
        omega
    | none =>
      rw [htr] at h
      by_cases hlf : lookFrom (c :: u') = true
      · rw [if_pos hlf] at h
        exact absurd h (by simp)
      · rw [if_neg hlf] at h
        cases hrec : stuffLoop al u' with
        | none => rw [hrec] at h; exact absurd h (by simp)
        | some r5 =>
          obtain ⟨sl', q', a', rel', len'⟩ := r5
          rw [hrec] at h
          dsimp only at h
          simp only [Option.some.injEq, Prod.mk.injEq] at h
          obtain ⟨hsl, hq, ha, hrel, hlen⟩ := h
          rw [hq, ha, hrel, hlen] at hrec
          obtain ⟨hle, htr', hneg⟩ := ih sl' hrec
          refine ⟨?_, ?_, ?_⟩
          · rw [← hsl]
            simp only [List.length_cons]
            omega
          · rw [← hsl]
            rw [List.drop_succ_cons]
            exact htr'
          · intro i hi
            cases i with
            | zero =>
              rw [List.drop_zero]
              exact ⟨htr, by simpa using hlf⟩
            | succ i' =>
              rw [List.drop_succ_cons]
              exact hneg i' (by omega)

theorem wsLoop_sound (al : List (List Char)) (s6 : List Char) (k0 k : Nat)
    (sl : Nat) (q : Char) (a rel : List Char) (len : Nat)
    (h : wsLoop al s6 k0 = some (k, sl, q, a, rel, len)) :
    1 ≤ k ∧ k ≤ k0 ∧ stuffLoop al (s6.drop k) = some (sl, q, a, rel, len) ∧
      (∀ j, k < j → j ≤ k0 → stuffLoop al (s6.drop j) = none) := by
  induction k0 with
  | zero => simp [wsLoop] at h
  | succ k1 ih =>
    rw [wsLoop] at h
    cases hst : stuffLoop al (s6.drop (k1 + 1)) with
    | some r =>
      rw [hst] at h
      obtain ⟨sl1, q1, a1, rel1, len1⟩ := r
      dsimp only at h
      simp only [Option.some.injEq, Prod.mk.injEq] at h
      obtain ⟨hk, hsl, hq, ha, hrel, hlen⟩ := h
      subst hk
      refine ⟨by omega, le_refl _, ?_, ?_⟩
      · rw [hst, hsl, hq, ha, hrel, hlen]
      · intro j h1 h2
        omega
    | none =>
      rw [hst] at h
      obtain ⟨h1, h2, h3, h4⟩ := ih h
      refine ⟨h1, by omega, h3, ?_⟩
      intro j hj1 hj2
      by_cases hj : j = k1 + 1
      · rw [hj]
        exact hst
      · exact h4 j hj1 (by omega)

/-- Soundness of the matcher: a successful match decomposes the suffix
into the full pattern skeleton, with all captured groups appearing
verbatim. -/
theorem matchAtS_decomp (al : List (List Char)) (prev : Option Char) (s : List Char)
    (m : MRes) (h : matchAtS al prev s = some m) :
    ∃ w1 w2 w3 rest,
      s = "import".data ++ (w1 ++ (m.stuff ++ (w2 ++ ("from".data ++
        (w3 ++ (m.quote :: (m.aliasTok ++ (m.rel ++ (m.quote :: rest))))))))) ∧
      prevBoundary prev = true ∧
      w1 ≠ [] ∧ (∀ c ∈ w1, pyIsSpace c) ∧
      w2 ≠ [] ∧ (∀ c ∈ w2, pyIsSpace c) ∧
      w3 ≠ [] ∧ (∀ c ∈ w3, pyIsSpace c) ∧
      isQuote m.quote = true ∧ m.aliasTok ∈ al ∧
      m.rel.take 1 = ['/'] ∧ 2 ≤ m.rel.length ∧ (∀ c ∈ m.rel, isQuote c = false) ∧
      m.wsLen = w1.length ∧
      m.consumed = 6 + w1.length + m.stuff.length +
        (w2.length + 4 + w3.length + 1 + (m.aliasTok.length + (m.rel.length + 1))) ∧
      m.consumed + rest.length = s.length := by
  unfold matchAtS at h
  by_cases hcond : (prevBoundary prev && "import".data.isPrefixOf s &&
      boundaryAfter (s.drop 6)) = true
  · rw [if_pos hcond] at h
    simp only [Bool.and_eq_true] at hcond
    obtain ⟨⟨hprev, himp⟩, hb6⟩ := hcond
    cases hws : wsLoop al (s.drop 6) (wsRun (s.drop 6)) with
    | none => rw [hws] at h; exact absurd h (by simp)
    | some r =>
      obtain ⟨k, sl, q1, a1, rel1, len1⟩ := r
      rw [hws] at h
      dsimp only at h
      simp only [Option.some.injEq] at h
      obtain ⟨hk1, hkle, hstuff, _⟩ := wsLoop_sound al (s.drop 6) _ k sl q1 a1 rel1 len1 hws
      obtain ⟨hslle, htr, _⟩ := stuffLoop_sound al _ sl q1 a1 rel1 len1 hstuff
      obtain ⟨w2, w3, rest, hdec, hw2ne, hw2sp, hw3ne, hw3sp, _, hq, hmem,
        hr1, hr2, hr3, _, hlen⟩ := tryRest_sound al _ q1 a1 rel1 len1 htr
      have hkws : k ≤ wsRun (s.drop 6) := hkle
      have hwsle : wsRun (s.drop 6) ≤ (s.drop 6).length := wsRun_le_length _
      have himp6 : s = "import".data ++ s.drop 6 := by
        obtain ⟨t, ht⟩ := List.isPrefixOf_iff_prefix.mp himp
        have htake : s.take 6 = "import".data :=
          (List.prefix_iff_eq_take.mp ⟨t, ht⟩).symm
        conv_lhs => rw [← List.take_append_drop 6 s]
        rw [htake]
      set s6 := s.drop 6 with hs6
      set w1 := s6.take k with hw1
      have hw1len : w1.length = k := by
        rw [hw1, List.length_take]
        omega
      set u := s6.drop k with hu
      have hs6dec : s6 = w1 ++ u := by
        rw [hw1, hu, List.take_append_drop]
      set stf := u.take sl with hstf
      have hstflen : stf.length = sl := by
        rw [hstf, List.length_take]
        omega
      have hudec : u = stf ++ u.drop sl := by
        rw [hstf, List.take_append_drop]
      have hstuffeq : List.take sl (List.drop (6 + k) s) = stf := by
        rw [hstf, hu, hs6, List.drop_drop]
      have hlens : s.length = 6 + s6.length := by
        have := congrArg List.length himp6
        rw [List.length_append] at this
        exact this
      have hs6len : s6.length = k + u.length := by
        have := congrArg List.length hs6dec
        rw [List.length_append, hw1len] at this
        exact this
      have hulen : u.length = sl + (u.drop sl).length := by
        have := congrArg List.length hudec
        rw [List.length_append, hstflen] at this
        exact this
      have hdlen := congrArg List.length hdec
      simp only [List.length_append, List.length_cons, List.length_nil] at hdlen
      rw [← h]
      dsimp only
      refine ⟨w1, w2, w3, rest, ?_, hprev, ?_, ?_, hw2ne, hw2sp, hw3ne, hw3sp,
        hq, hmem, hr1, hr2, hr3, hw1len.symm, ?_, ?_⟩
      · rw [hstuffeq]
        conv_lhs => rw [himp6, hs6dec, hudec, hdec]
      · intro habs
        rw [habs] at hw1len
        simp at hw1len
        omega
      · rw [hw1]
        exact wsRun_take_space s6 k hkws
      · rw [hstuffeq, hstflen, hw1len]
        omega
      · omega
  · rw [if_neg hcond] at h
    exact absurd h (by simp)

theorem matchAtS_alias_infix (al : List (List Char)) (prev : Option Char)
    (s : List Char) (m : MRes) (h : matchAtS al prev s = some m) :
    ∃ a ∈ al, a <:+: s := by
  obtain ⟨w1, w2, w3, rest, hdec, _, _, _, _, _, _, _, _, hmem, _⟩ :=
    matchAtS_decomp al prev s m h
  refine ⟨m.aliasTok, hmem, ?_⟩
  refine ⟨"import".data ++ (w1 ++ (m.stuff ++ (w2 ++ ("from".data ++
    (w3 ++ [m.quote]))))), m.rel ++ (m.quote :: rest), ?_⟩
  rw [hdec]
  simp [List.append_assoc]

/-- Fuel-indexed unfolding equations for the substitution scan. -/
theorem scanSub_zero (mp : List (List Char × List Char)) (al : List (List Char))
    (prev : Option Char) (s : List Char) : scanSub mp al 0 prev s = .fuelOut := rfl

theorem scanSub_succ (mp : List (List Char × List Char)) (al : List (List Char))
    (fuel : Nat) (prev : Option Char) (s : List Char) :
    scanSub mp al (fuel + 1) prev s = (match matchAtS al prev s with
    | none =>
      match s with
      | [] => .ok [] []
      | c :: s' =>
        match scanSub mp al fuel (some c) s' with
        | .ok out ch => .ok (c :: out) ch
        | r => r
    | some m =>
      let span := s.take m.consumed
      match pyReplaceMatch mp span m.stuff m.quote m.aliasTok m.rel with
      | none => .crash
      | some (repl, recd) =>
        match scanSub mp al fuel span.getLast? (s.drop m.consumed) with
        | .ok out ch => .ok (repl ++ out) (if recd then m.aliasTok :: ch else ch)
        | r => r) := rfl

/-- Scanning a text in which no alias occurs leaves it untouched. -/
theorem scanSub_id_of_no_alias (mp : List (List Char × List Char))
    (al : List (List Char)) (fuel : Nat) (prev : Option Char) (s : List Char)
    (hfuel : s.length < fuel) (hno : ∀ a ∈ al, ¬ a <:+: s) :
    scanSub mp al fuel prev s = .ok s [] := by
  induction fuel generalizing prev s with
  | zero => omega
  | succ f ih =>
    rw [scanSub_succ]
    cases hm : matchAtS al prev s with
    | some m =>
      obtain ⟨a, hmem, hinf⟩ := matchAtS_alias_infix al prev s m hm
      exact absurd hinf (hno a hmem)
    | none =>
      dsimp only
      cases s with
      | nil => rfl
      | cons c s' =>
        have hno' : ∀ a ∈ al, ¬ a <:+: s' := by
          intro a hmem hinf
          exact hno a hmem (hinf.trans (List.suffix_cons c s').isInfix)
        have hlen : s'.length < f := by
          simp only [List.length_cons] at hfuel
          omega
        dsimp only
        rw [ih (some c) s' hlen hno']

/-- C4: a file text in which no known alias occurs at all is left
byte-identical by the substitution pass: the pass returns the original
content with an empty change list, and `_replaceAliases` therefore
performs no write and emits no report. -/
theorem C4_no_alias_no_change (mp : List (List Char × List Char))
    (content : List Char)
    (hno : ∀ a ∈ mp.map Prod.fst, ¬ a <:+: content) :
    pySub mp content = .ok content [] ∧
    replaceAliasesModel mp content = some ⟨none, none⟩ := by
  have h := scanSub_id_of_no_alias mp (mp.map Prod.fst) (content.length + 1)
    none content (by omega) hno
  refine ⟨h, ?_⟩
  unfold replaceAliasesModel pySub
  rw [h]
  simp

theorem C4_no_alias_no_change_witness :
    pySub [("@a".data, "/r".data)] "import fs from \"node:fs\";".data
      = .ok "import fs from \"node:fs\";".data [] ∧
    replaceAliasesModel [("@a".data, "/r".data)] "import fs from \"node:fs\";".data
      = some ⟨none, none⟩ :=
  C4_no_alias_no_change [("@a".data, "/r".data)]
    "import fs from \"node:fs\";".data (by decide)

/-- C5: every rewritten import statement preserves the original quote
character and reproduces the original binding text verbatim, in the shape
`import <bindings> from <quote><replacement><relativePath'><quote>`: the
matcher extracts the quote character and the binding text verbatim from
the matched statement (shown by the decomposition of the matched text),
and the replacement emits exactly that quote character on both ends and
exactly that binding text, without normalizing whitespace inside the
bindings. -/
theorem C5_quote_and_bindings_preserved
    (al : List (List Char)) (mp : List (List Char × List Char))
    (prev : Option Char) (s : List Char) (m : MRes)
    (whole out : List Char) (b : Bool) (v : List Char)
    (hm : matchAtS al prev s = some m)
    (hv : mp.lookup m.aliasTok = some v)
    (hout : pyReplaceMatch mp whole m.stuff m.quote m.aliasTok m.rel = some (out, b)) :
    ∃ relOut, out = "import ".data ++ m.stuff ++ " from ".data ++
        m.quote :: (posixStr (parsePosix v) ++ relOut ++ [m.quote]) ∧
    ∃ w1 w2 w3 rest,
      s = "import".data ++ (w1 ++ (m.stuff ++ (w2 ++ ("from".data ++
        (w3 ++ (m.quote :: (m.aliasTok ++ (m.rel ++ (m.quote :: rest))))))))) ∧
      (∀ c ∈ w1, pyIsSpace c) ∧ (∀ c ∈ w2, pyIsSpace c) ∧ (∀ c ∈ w3, pyIsSpace c) := by
  have hdecfull := matchAtS_decomp al prev s m hm
  obtain ⟨w1, w2, w3, rest, hdec, _, _, hw1sp, _, hw2sp, _, hw3sp, _⟩ := hdecfull
  simp only [pyReplaceMatch, hv] at hout
  by_cases hext : pyLower (pathSuffix (parsePosix m.rel)) ∈ knownExts
  · rw [if_pos hext] at hout
    dsimp only at hout
    simp only [Option.some.injEq, Prod.mk.injEq] at hout
    refine ⟨posixStr (parsePosix m.rel), ?_, w1, w2, w3, rest, hdec, hw1sp, hw2sp, hw3sp⟩
    rw [← hout.1]
  · rw [if_neg hext] at hout
    cases hws : withSuffixJs (parsePosix m.rel) with
    | none => rw [hws] at hout; exact absurd hout (by simp)
    | some p2 =>
      rw [hws] at hout
      dsimp only at hout
      simp only [Option.some.injEq, Prod.mk.injEq] at hout
      refine ⟨posixStr p2, ?_, w1, w2, w3, rest, hdec, hw1sp, hw2sp, hw3sp⟩
      rw [← hout.1]

theorem C5_quote_and_bindings_preserved_witness :
    ∃ relOut, "import { x } from '/r/b.js'".data =
        "import ".data ++ "{ x }".data ++ " from ".data ++
        '\'' :: (posixStr (parsePosix "/r".data) ++ relOut ++ ['\'']) ∧
    ∃ w1 w2 w3 rest,
      "import { x } from '@a/b.ts'".data = "import".data ++ (w1 ++ ("{ x }".data ++
        (w2 ++ ("from".data ++ (w3 ++ ('\'' :: ("@a".data ++ ("/b.ts".data ++
        ('\'' :: rest))))))))) ∧
      (∀ c ∈ w1, pyIsSpace c) ∧ (∀ c ∈ w2, pyIsSpace c) ∧ (∀ c ∈ w3, pyIsSpace c) :=
  C5_quote_and_bindings_preserved ["@a".data] [("@a".data, "/r".data)]
    none "import { x } from '@a/b.ts'".data
    ⟨1, "{ x }".data, '\'', "@a".data, "/b.ts".data, 27⟩
    "w".data "import { x } from '/r/b.js'".data true "/r".data rfl rfl rfl

theorem C10_amended_normalized_concat_witness :
    pyReplaceMatch [("@a".data, "/a".data)] "import x from \"@a/x//y.js\"".data
      "x".data '"' "@a".data "/x//y.js".data =
      some ("import ".data ++ "x".data ++ " from ".data ++
        '"' :: (specJoinedPath "/a".data "/x//y.js".data ++ ['"']), true) ∧
    specJoinedPath "/a".data "/x//y.js".data = "/a/x/y.js".data :=
  C10_amended_normalized_concat [("@a".data, "/a".data)]
    "import x from \"@a/x//y.js\"".data "x".data '"' "@a".data "/x//y.js".data
    "/a".data rfl rfl (by decide) (by decide) rfl (by decide) (by decide) (by decide)

/-- C2 (counterexample): the per-file rewrite is not idempotent for every
alias table and file text. With the table `/a -> /a/c` (built from the
raw pair `/a a/c`), the text `import z from "/a/b.js"` rewrites to
`import z from "/a/c/b.js"`, and the second pass matches the alias `/a`
again at the start of the rewritten quoted path, producing the strictly
longer `import z from "/a/c/c/b.js"`: each pass grows the imported path,
so the second output differs from the first. -/
theorem C2_counterexample_growth :
    pySub [("/a".data, "/a/c".data)] "import z from \"/a/b.js\"".data
      = .ok "import z from \"/a/c/b.js\"".data ["/a".data] ∧
    pySub [("/a".data, "/a/c".data)] "import z from \"/a/c/b.js\"".data
      = .ok "import z from \"/a/c/c/b.js\"".data ["/a".data] ∧
    ("import z from \"/a/c/b.js\"".data : List Char)
      ≠ "import z from \"/a/c/c/b.js\"".data :=
  ⟨rfl, rfl, by decide⟩

/-- C2 (amended): the per-file rewrite is idempotent whenever the first
pass's output no longer contains any configured alias as a substring —
the precondition the spec itself gives as justification ("the second pass
finds no more matches referencing the old alias, since the alias has
already been replaced"): if the substitution pass turns `content` into
`out` and no alias of the table occurs anywhere in `out`, then applying
the substitution pass to `out` returns `out` byte-identical with no
further changes recorded. -/
theorem C2_amended_idempotent (mp : List (List Char × List Char))
    (content out : List Char) (changes : List (List Char))
    (_h1 : pySub mp content = .ok out changes)
    (hno : ∀ a ∈ mp.map Prod.fst, ¬ a <:+: out) :
    pySub mp out = .ok out [] := by
  clear _h1 changes content
  exact scanSub_id_of_no_alias mp (mp.map Prod.fst) (out.length + 1) none out
    (by omega) hno

theorem C2_amended_idempotent_witness :
    pySub [("@a".data, "/r".data)] "import x from \"@a/b.ts\"".data
      = .ok "import x from \"/r/b.js\"".data ["@a".data] ∧
    pySub [("@a".data, "/r".data)] "import x from \"/r/b.js\"".data
      = .ok "import x from \"/r/b.js\"".data [] :=
  ⟨rfl, C2_amended_idempotent [("@a".data, "/r".data)]
    "import x from \"@a/b.ts\"".data "import x from \"/r/b.js\"".data
    ["@a".data] rfl (by decide)⟩

end JsAlias
